import Mathlib

/-!
Verification of the phi-rs orchestration layer (token buffers, the
autoregressive decoding session, the instruct prompt assembly, the
prefix-constrained choice algorithm and the scene memory manager).

Strings from the Rust side are embedded as `List Char`; `str::trim` and
`str::to_lowercase` are embedded character-wise (ASCII-faithful), and the
neural engine (forward pass, sampler, tokenizer) is an oracle parameter,
as the spec treats it as an external collaborator.  All `u64` arithmetic
is carried out in `Nat` with explicit reduction modulo `2 ^ 64`.
-/

namespace PhiRs

/-- The modulus of Rust's `u64` arithmetic. -/
def U64 : Nat := 2 ^ 64

/-- `u64::MAX`. -/
def u64max : Nat := 2 ^ 64 - 1

/-- Embedding of `char::is_whitespace` (restricted to the ASCII whitespace
the tokenizer produces). -/
def wsChar (c : Char) : Bool := c.isWhitespace

/-- Embedding of `str::trim`: drop whitespace from both ends. -/
def trimChars (l : List Char) : List Char :=
  (((l.dropWhile wsChar).reverse).dropWhile wsChar).reverse

/-- Embedding of `str::to_lowercase` (character-wise, ASCII-faithful). -/
def lowerChars (l : List Char) : List Char := l.map Char.toLower

/-- Embedding of `s.trim().to_lowercase()` as used throughout
`Model::try_choose_item`. -/
def fmtChars (l : List Char) : List Char := lowerChars (trimChars l)

/-- Embedding of `str::starts_with`: `startsWithL l pat` is true when `pat`
is a prefix of `l`. -/
def startsWithL : List Char → List Char → Bool
  | _, [] => true
  | [], _ :: _ => false
  | c :: cs, p :: ps => p == c && startsWithL cs ps

/-- Embedding of `str::contains` for a literal pattern. -/
def containsL : List Char → List Char → Bool
  | [], pat => startsWithL [] pat
  | c :: rest, pat => startsWithL (c :: rest) pat || containsL rest pat

/-- Embedding of `s.split(pat).next().unwrap()`: the text before the first
occurrence of `pat` (all of `s` when `pat` does not occur). -/
def takeBefore : List Char → List Char → List Char
  | [], _ => []
  | c :: rest, pat =>
    if startsWithL (c :: rest) pat then [] else c :: takeBefore rest pat

theorem startsWithL_iff (l pat : List Char) :
    startsWithL l pat = true ↔ pat <+: l := by
  induction pat generalizing l with
  | nil => cases l <;> simp [startsWithL]
  | cons p ps ih =>
    cases l with
    | nil => simp [startsWithL]
    | cons c cs =>
      rw [List.cons_prefix_cons]
      show (p == c && startsWithL cs ps) = true ↔ _
      rw [Bool.and_eq_true, beq_iff_eq, ih]

theorem trimChars_mono {s t : List Char} (h : s <+: t) :
    trimChars s <+: trimChars t := by
  obtain ⟨u, rfl⟩ := h
  unfold trimChars
  rw [List.dropWhile_append]
  by_cases hs : (s.dropWhile wsChar).isEmpty
  · have : ((s.dropWhile wsChar).reverse.dropWhile wsChar).reverse = [] := by
      simp only [List.isEmpty_iff] at hs
      simp [hs]
    rw [this]
    exact ⟨_, rfl⟩
  · simp only [hs, if_neg, Bool.false_eq_true, not_false_iff, if_false]
    rw [List.reverse_append, List.dropWhile_append]
    by_cases hu : (u.reverse.dropWhile wsChar).isEmpty
    · simp only [hu, if_pos]
      exact ⟨[], (List.append_nil _)⟩
    · simp only [hu, if_neg, Bool.false_eq_true, not_false_iff, if_false]
      rw [List.reverse_append, List.reverse_reverse]
      refine List.IsPrefix.trans ?_ ⟨(u.reverse.dropWhile wsChar).reverse, rfl⟩
      rw [← List.reverse_suffix, List.reverse_reverse]
      exact List.dropWhile_suffix wsChar

theorem fmtChars_mono {s t : List Char} (h : s <+: t) :
    fmtChars s <+: fmtChars t :=
  (trimChars_mono h).map Char.toLower

/-! ### `Model::try_choose_item` (src/model.rs lines 202-284)

The engine is abstracted as an oracle `gen` mapping the attempt's seed and
temperature to the stream of decoded token texts it produces before
exhaustion (each list element is the decoded text of one generated token).
Temperatures are embedded as exact rationals: the Rust code uses `f64`
values `0.2`, `0.4`, ... obtained by repeatedly adding the literal `0.2`.
-/

/-- The guard at src/model.rs lines 213-217: shift the base seed down by
`u64::MAX / 2` when `seed + attempts` would overflow. -/
def adjustSeed (seed attempts : Nat) : Nat :=
  if u64max - attempts < seed then seed - u64max / 2 else seed

/-- The inner pruning loop of `try_choose_item` (lines 255-270): while more
than one candidate remains, pull the next decoded token text, append it to
the running accumulator, and retain the candidates that start with the
trimmed lower-cased accumulator; if the stream is exhausted first, the
working set is cleared. -/
def pruneLoop : List (List Char) → List Char → List (List Char) → List (List Char)
  | possible, _, [] => if possible.length ≤ 1 then possible else []
  | possible, inferred, piece :: rest =>
    if possible.length ≤ 1 then possible
    else
      pruneLoop
        (possible.filter fun item => startsWithL item (fmtChars (inferred ++ piece)))
        (inferred ++ piece) rest

/-- One attempt of `try_choose_item` (lines 247-276): run the pruning loop
from the full normalized candidate list; succeed exactly when one
candidate remains. -/
def runAttempt (items : List (List Char)) (stream : List (List Char)) :
    Option (List Char) :=
  match pruneLoop items [] stream with
  | [x] => some x
  | _ => none

/-- The retry loop of `try_choose_item` (lines 244-280): seeds go up by 1
and the temperature by `0.2` after every failed attempt; the first
successful attempt's candidate is the result. -/
def chooseAttempts (gen : Nat → ℚ → List (List Char))
    (norm : List (List Char)) : Nat → ℚ → Nat → Option (List Char)
  | _, _, 0 => none
  | s, t, rem + 1 =>
    match runAttempt norm (gen s t) with
    | some x => some x
    | none => chooseAttempts gen norm (s + 1) (t + 1/5) rem

/-- `Model::try_choose_item`: normalize the candidates, guard the seed
range, then retry with escalating temperature starting at `0.2`. -/
def tryChooseItem (gen : Nat → ℚ → List (List Char))
    (items : List (List Char)) (seed attempts : Nat) : Option (List Char) :=
  chooseAttempts gen (items.map fmtChars) (adjustSeed seed attempts) (1/5) attempts

theorem fmtChars_nil : fmtChars [] = [] := rfl

theorem filter_startsWith_self (norm : List (List Char)) :
    norm.filter (fun item => startsWithL item (fmtChars [])) = norm := by
  rw [fmtChars_nil]
  induction norm with
  | nil => rfl
  | cons x xs ih => simp [List.filter_cons, startsWithL_iff, ih, List.nil_prefix]

/-- If after consuming `k` stream pieces the trimmed lower-cased
accumulator is a prefix of exactly the one candidate `c`, the pruning loop
ends with working set `[c]`. -/
theorem pruneLoop_isolates (norm : List (List Char)) (c : List Char) :
    ∀ (k : Nat) (stream : List (List Char)) (inferred : List Char)
      (possible : List (List Char)),
      possible = norm.filter (fun item => startsWithL item (fmtChars inferred)) →
      k ≤ stream.length →
      norm.filter
        (fun item =>
          startsWithL item (fmtChars (inferred ++ (stream.take k).flatten))) = [c] →
      pruneLoop possible inferred stream = [c] := by
  intro k
  induction k with
  | zero =>
    intro stream inferred possible hpos _ hiso
    simp only [List.take_zero, List.flatten_nil, List.append_nil] at hiso
    subst hpos
    rw [hiso]
    cases stream <;> simp [pruneLoop]
  | succ k ih =>
    intro stream inferred possible hpos hk hiso
    cases stream with
    | nil => simp at hk
    | cons piece rest =>
      have hmemc : c ∈ norm ∧
          startsWithL c
            (fmtChars (inferred ++ ((piece :: rest).take (k+1)).flatten)) = true := by
        have : c ∈ norm.filter
            (fun item =>
              startsWithL item
                (fmtChars (inferred ++ ((piece :: rest).take (k+1)).flatten))) := by
          rw [hiso]; exact List.mem_singleton.mpr rfl
        exact ⟨(List.mem_filter.mp this).1, (List.mem_filter.mp this).2⟩
      -- the accumulator only grows, so `c` already passes the current filter
      have hstep : ∀ it pre : List Char, inferred <+: pre →
          startsWithL it (fmtChars pre) = true →
          startsWithL it (fmtChars inferred) = true := by
        intro it pre hpre hc
        rw [startsWithL_iff] at hc ⊢
        exact (fmtChars_mono hpre).trans hc
      have hcinf : startsWithL c (fmtChars inferred) = true :=
        hstep _ _ ⟨_, rfl⟩ hmemc.2
      have hcpos : c ∈ possible := by
        rw [hpos]; exact List.mem_filter.mpr ⟨hmemc.1, hcinf⟩
      show pruneLoop possible inferred (piece :: rest) = [c]
      unfold pruneLoop
      by_cases hlen : possible.length ≤ 1
      · -- the working set is already a singleton, and it must be `[c]`
        rw [if_pos hlen]
        have hne : possible ≠ [] := fun h => by rw [h] at hcpos; cases hcpos
        have h1 : possible.length = 1 := by
          have := List.length_pos.mpr hne
          omega
        obtain ⟨a, ha⟩ := List.length_eq_one.mp h1
        rw [ha] at hcpos ⊢
        cases List.mem_singleton.mp hcpos
        rfl
      · rw [if_neg hlen]
        apply ih rest (inferred ++ piece)
        · rw [hpos, List.filter_filter]
          apply List.filter_congr
          intro item _
          cases hsw : startsWithL item (fmtChars (inferred ++ piece)) with
          | false => simp
          | true =>
            have : startsWithL item (fmtChars inferred) = true :=
              hstep _ _ ⟨piece, rfl⟩ hsw
            simp [this]
        · simpa using hk
        · have harg : inferred ++ ((piece :: rest).take (k + 1)).flatten
              = (inferred ++ piece) ++ (rest.take k).flatten := by
            simp [List.take_succ_cons, List.flatten_cons, List.append_assoc]
          rw [harg] at hiso
          exact hiso

/-- Claim C1: within one attempt of `try_choose_item`, whenever the
accumulated generated text, trimmed and lower-cased, is a prefix of
exactly one normalized candidate, the working set is pruned to exactly
that candidate and `try_choose_item` returns it immediately as the overall
result — on the very first attempt, without starting another one. -/
theorem choose_item_converges
    (gen : Nat → ℚ → List (List Char)) (items : List (List Char))
    (seed attempts : Nat) (c : List Char) (k : Nat)
    (hatt : 1 ≤ attempts)
    (hk : k ≤ (gen (adjustSeed seed attempts) (1/5)).length)
    (hiso : (items.map fmtChars).filter
        (fun item =>
          startsWithL item
            (fmtChars (((gen (adjustSeed seed attempts) (1/5)).take k).flatten)))
        = [c]) :
    pruneLoop (items.map fmtChars) [] (gen (adjustSeed seed attempts) (1/5)) = [c] ∧
    runAttempt (items.map fmtChars) (gen (adjustSeed seed attempts) (1/5)) = some c ∧
    tryChooseItem gen items seed attempts = some c := by
  have hprune :
      pruneLoop (items.map fmtChars) [] (gen (adjustSeed seed attempts) (1/5))
        = [c] := by
    apply pruneLoop_isolates (items.map fmtChars) c k _ []
    · exact (filter_startsWith_self _).symm
    · exact hk
    · simpa using hiso
  have hrun :
      runAttempt (items.map fmtChars) (gen (adjustSeed seed attempts) (1/5))
        = some c := by
    unfold runAttempt
    rw [hprune]
  refine ⟨hprune, hrun, ?_⟩
  obtain ⟨n, rfl⟩ : ∃ n, attempts = n + 1 := ⟨attempts - 1, by omega⟩
  unfold tryChooseItem
  unfold chooseAttempts
  rw [hrun]

/-- Witness for C1: candidates `{"sword","shield"}` and generated text
`"sw"` yield the answer `"sword"` on the first attempt. -/
theorem choose_item_converges_witness :
    tryChooseItem (fun _ _ => ["sw".toList])
      ["sword".toList, "shield".toList] 0 1 = some "sword".toList :=
  (choose_item_converges (fun _ _ => ["sw".toList])
    ["sword".toList, "shield".toList] 0 1 "sword".toList 1
    (by decide) (by decide) (by decide)).2.2

/-- If the first `a` attempts all fail, the retry loop reaches attempt `a`
with seed increased by `a` and temperature increased by `a` steps of
`0.2`. -/
theorem chooseAttempts_skip (gen : Nat → ℚ → List (List Char))
    (norm : List (List Char)) :
    ∀ (a rem : Nat) (s : Nat) (t : ℚ), a ≤ rem →
      (∀ i, i < a → runAttempt norm (gen (s + i) (t + (i : ℚ) * (1/5))) = none) →
      chooseAttempts gen norm s t rem
        = chooseAttempts gen norm (s + a) (t + (a : ℚ) * (1/5)) (rem - a) := by
  intro a
  induction a with
  | zero => intro rem s t _ _; simp
  | succ a ih =>
    intro rem s t hle hfail
    obtain ⟨rem', rfl⟩ : ∃ r, rem = r + 1 := ⟨rem - 1, by omega⟩
    have hc : ((a + 1 : Nat) : ℚ) = (a : ℚ) + 1 := by push_cast; ring
    rw [hc]
    have h0 : runAttempt norm (gen s t) = none := by
      have := hfail 0 (by omega)
      simpa using this
    have hrest : ∀ i, i < a →
        runAttempt norm (gen (s + 1 + i) (t + 1/5 + (i : ℚ) * (1/5))) = none := by
      intro i hi
      have := hfail (i + 1) (by omega)
      have harg1 : s + 1 + i = s + (i + 1) := by omega
      have harg2 : t + 1/5 + (i : ℚ) * (1/5) = t + ((i : ℚ) + 1) * (1/5) := by
        ring
      rw [harg1, harg2]
      simpa [Nat.cast_add] using this
    calc chooseAttempts gen norm s t (rem' + 1)
        = chooseAttempts gen norm (s + 1) (t + 1/5) rem' := by
          conv_lhs => rw [chooseAttempts]
          rw [h0]
      _ = chooseAttempts gen norm (s + 1 + a) (t + 1/5 + (a : ℚ) * (1/5))
            (rem' - a) := ih rem' (s + 1) (t + 1/5) (by omega) hrest
      _ = chooseAttempts gen norm (s + (a + 1)) (t + ((a : ℚ) + 1) * (1/5))
            (rem' + 1 - (a + 1)) := by
          have h1 : s + 1 + a = s + (a + 1) := by omega
          have h2 : t + 1/5 + (a : ℚ) * (1/5) = t + ((a : ℚ) + 1) * (1/5) := by
            ring
          have h3 : rem' - a = rem' + 1 - (a + 1) := by omega
          rw [h1, h2, h3]

/-- Claim C2: an attempt fails when the stream is exhausted with more than
one candidate remaining (the working set is cleared to empty) or when the
pruning loop does not end with exactly one candidate; each failed attempt
is followed by the next one with the seed incremented by 1 and the
temperature raised by the fixed step `0.2` from the starting value `0.2`;
and when every attempt fails, `try_choose_item` returns `none` — the
embedding is a total function, so no crash is possible. -/
theorem choose_item_retries
    (gen : Nat → ℚ → List (List Char)) (items : List (List Char))
    (seed attempts : Nat) :
    (∀ (possible : List (List Char)) (inferred : List Char),
        1 < possible.length → pruneLoop possible inferred [] = []) ∧
    (∀ stream, (pruneLoop (items.map fmtChars) [] stream).length ≠ 1 →
        runAttempt (items.map fmtChars) stream = none) ∧
    (∀ a, a ≤ attempts →
        (∀ i, i < a →
          runAttempt (items.map fmtChars)
            (gen (adjustSeed seed attempts + i) (1/5 + (i : ℚ) * (1/5))) = none) →
        chooseAttempts gen (items.map fmtChars)
            (adjustSeed seed attempts) (1/5) attempts
          = chooseAttempts gen (items.map fmtChars)
              (adjustSeed seed attempts + a) (1/5 + (a : ℚ) * (1/5))
              (attempts - a)) ∧
    ((∀ i, i < attempts →
        runAttempt (items.map fmtChars)
          (gen (adjustSeed seed attempts + i) (1/5 + (i : ℚ) * (1/5))) = none) →
      tryChooseItem gen items seed attempts = none) := by
  refine ⟨?_, ?_, ?_, ?_⟩
  · intro possible inferred hlen
    show (if possible.length ≤ 1 then possible else []) = []
    rw [if_neg (by omega)]
  · intro stream hne
    unfold runAttempt
    cases hp : pruneLoop (items.map fmtChars) [] stream with
    | nil => rfl
    | cons x tl =>
      cases tl with
      | nil => rw [hp] at hne; simp at hne
      | cons y tl2 => rfl
  · intro a ha hfail
    exact chooseAttempts_skip gen (items.map fmtChars) a attempts
      (adjustSeed seed attempts) (1/5) ha hfail
  · intro hfail
    unfold tryChooseItem
    rw [chooseAttempts_skip gen (items.map fmtChars) attempts attempts
      (adjustSeed seed attempts) (1/5) (le_refl _) hfail]
    simp [chooseAttempts]

/-- Witness for C2: with a stream that matches no candidate, both attempts
fail and `try_choose_item` answers `none`. -/
theorem choose_item_retries_witness :
    tryChooseItem (fun _ _ => ["x".toList])
      ["sword".toList, "shield".toList] 0 2 = none :=
  (choose_item_retries (fun _ _ => ["x".toList])
      ["sword".toList, "shield".toList] 0 2).2.2.2 (by decide)

/-- Counterexample to claim C9 as stated: with base seed `2^64 - 1` and
attempt count `2^63 + 1`, the guard fires and shifts the base down to
`2^63`, yet attempt index `2^63` (which is below the attempt count) would
receive seed `2^64`, above the `u64` range. -/
theorem adjustSeed_overflow_counterexample :
    2 ^ 63 < 2 ^ 63 + 1 ∧
    u64max < adjustSeed u64max (2 ^ 63 + 1) + 2 ^ 63 := by
  constructor
  · omega
  · show u64max < (if u64max - (2 ^ 63 + 1) < u64max then u64max - u64max / 2
      else u64max) + 2 ^ 63
    rw [if_pos (by norm_num [u64max])]
    norm_num [u64max]

/-- Claim C9 amended: for every base seed in the `u64` range and every
attempt count at most `2^63 - 1`, the guard's subtraction cannot
underflow (when it fires, the base is at least `u64::MAX / 2`), and the
whole seed range of the attempt loop — every `base' + a` with
`a < attempts`, and even the exclusive range end `base' + attempts` —
stays within the `u64` range. -/
theorem adjustSeed_safe (seed attempts : Nat)
    (hs : seed ≤ u64max) (ha : attempts ≤ 2 ^ 63 - 1) :
    (u64max - attempts < seed → u64max / 2 ≤ seed) ∧
    adjustSeed seed attempts + attempts ≤ u64max := by
  have hmax : u64max = 2 ^ 64 - 1 := rfl
  unfold adjustSeed
  constructor
  · intro h
    omega
  · split <;> omega

/-- Witness for the amended C9: a near-maximal base with 3 attempts is
shifted into range. -/
theorem adjustSeed_safe_witness :
    adjustSeed u64max 3 + 3 ≤ u64max :=
  (adjustSeed_safe u64max 3 (le_refl _) (by norm_num)).2

/-! ### `TokenString::next` (src/token_string.rs lines 84-93) -/

/-- Embedding of the default seed derivation of `TokenString::next`:
wrapping-sum of the token ids in `tokens[len.saturating_sub(4)..]`. -/
def defaultSeed (tokens : List Nat) : Nat :=
  (tokens.drop (tokens.length - 4)).foldl (fun acc t => (acc + t) % U64) 0

theorem foldl_wrap_eq_sum (l : List Nat) (a : Nat) :
    l.foldl (fun acc t => (acc + t) % U64) (a % U64) = (a + l.sum) % U64 := by
  induction l generalizing a with
  | nil => simp
  | cons x xs ih =>
    simp only [List.foldl_cons, List.sum_cons]
    rw [Nat.mod_add_mod, ih (a + x), Nat.add_assoc]

/-- Counterexample to claim C7 as stated: a buffer holding the single
token id 5 has fewer than 4 tokens, yet its default seed is 5, not 0. -/
theorem defaultSeed_counterexample :
    [(5 : Nat)].length < 4 ∧ defaultSeed [5] ≠ 0 := by
  constructor
  · norm_num
  · show (0 + 5) % U64 ≠ 0
    norm_num [U64]

/-- Claim C7 amended: the default-seed variant derives its seed as the
wrapping (mod `2^64`) sum of the last `min 4 len` token ids of the buffer;
when the buffer holds fewer than 4 tokens it sums all of them (so the seed
is 0 only when that sum is 0, not for every short buffer). -/
theorem defaultSeed_eq (tokens : List Nat) :
    defaultSeed tokens = (tokens.drop (tokens.length - 4)).sum % U64 ∧
    (tokens.length < 4 → defaultSeed tokens = tokens.sum % U64) := by
  have h := foldl_wrap_eq_sum (tokens.drop (tokens.length - 4)) 0
  rw [Nat.zero_mod] at h
  rw [Nat.zero_add] at h
  constructor
  · exact h
  · intro hlt
    have hz : tokens.length - 4 = 0 := by omega
    have h2 := foldl_wrap_eq_sum tokens 0
    rw [Nat.zero_mod, Nat.zero_add] at h2
    show (tokens.drop (tokens.length - 4)).foldl (fun acc t => (acc + t) % U64) 0
        = tokens.sum % U64
    rw [hz, List.drop_zero]
    exact h2

/-- Witness for the amended C7: the buffer `[5]` (shorter than 4) has seed
`5 % 2^64 = 5`, the sum of all its tokens. -/
theorem defaultSeed_eq_witness : defaultSeed [5] = [(5 : Nat)].sum % U64 :=
  (defaultSeed_eq [5]).2 (by norm_num)

/-! ### `Model::infer_iter` seed combination (src/model.rs line 114) -/

/-- Embedding of `seed.wrapping_add(self.seed)`: the seed handed to the
sampler is the caller-supplied seed plus the model's stored constructor
seed, mod `2^64`. -/
def inferIterSeed (modelSeed callerSeed : Nat) : Nat :=
  (callerSeed + modelSeed) % U64

/-- Claim C10: every generation entry point funnels through `infer_iter`,
whose sampler seed is the caller seed wrapping-added to the model's stored
seed; for a fixed caller seed, two models with different stored seeds (in
`u64` range) hand the sampler different seeds, so reproducing an output
requires fixing the stored seed as well. -/
theorem inferIterSeed_characterization (callerSeed m1 m2 : Nat)
    (h1 : m1 < U64) (h2 : m2 < U64) :
    inferIterSeed m1 callerSeed = inferIterSeed m2 callerSeed ↔ m1 = m2 := by
  unfold inferIterSeed
  constructor
  · intro h
    simp only [U64] at h h1 h2
    omega
  · intro h
    rw [h]

/-- Witness for C10: model seeds 1 and 2 with caller seed 0 give the
sampler different seeds. -/
theorem inferIterSeed_characterization_witness :
    (inferIterSeed 1 0 = inferIterSeed 2 0) ↔ 1 = 2 :=
  inferIterSeed_characterization 0 1 2 (by norm_num [U64]) (by norm_num [U64])

/-! ### `InferIter` (src/model.rs lines 287-404)

The session's state is the token buffer, the step counter, the
end-of-sequence token id and the terminal flag.  The forward pass, the
repeat-penalty transform and the sampler are folded into an oracle
`sample` giving the token sampled at each step count (the spec makes the
sampler deterministic in engine, seed, config and prompt, so one run is a
function of the step). -/

/-- The mutable state of `InferIter`. -/
structure Session where
  tokens : List Nat
  step : Nat
  eosToken : Nat
  reachedEos : Bool
deriving DecidableEq

/-- Embedding of `InferIter::next_token` (lines 322-376): in the terminal
state produce nothing; otherwise sample, advance the step counter, and
either append the token and yield it, or — when it equals the
end-of-sequence token — become terminal without appending. -/
def nextToken (sample : Nat → Nat) (s : Session) : Option Nat × Session :=
  if s.reachedEos then (none, s)
  else
    let t := sample s.step
    if t = s.eosToken then
      (none, { s with step := s.step + 1, reachedEos := true })
    else
      (some t, { s with tokens := s.tokens ++ [t], step := s.step + 1 })

/-- Claim C8: when the sampled token equals the end-of-sequence token the
session transitions to its terminal state, the token is not appended to
the buffer, and no token is produced for that step; and once terminal,
every subsequent `next_token` call produces nothing and leaves the buffer
(indeed the whole session) unchanged. -/
theorem nextToken_eos (sample : Nat → Nat) (s : Session) :
    (s.reachedEos = false → sample s.step = s.eosToken →
      nextToken sample s
        = (none, { s with step := s.step + 1, reachedEos := true })) ∧
    (s.reachedEos = true → nextToken sample s = (none, s)) := by
  constructor
  · intro hrun heos
    unfold nextToken
    rw [if_neg (by simp [hrun]), if_pos heos]
  · intro hdone
    unfold nextToken
    rw [if_pos hdone]

/-- Witness for C8: a session sampling the end-of-sequence token 7 becomes
terminal without appending, and a terminal session is left untouched. -/
theorem nextToken_eos_witness :
    nextToken (fun _ => 7) ⟨[1, 2], 0, 7, false⟩
        = (none, ⟨[1, 2], 1, 7, true⟩) ∧
    nextToken (fun _ => 7) ⟨[1, 2], 5, 7, true⟩
        = (none, ⟨[1, 2], 5, 7, true⟩) :=
  ⟨(nextToken_eos (fun _ => 7) ⟨[1, 2], 0, 7, false⟩).1 rfl rfl,
   (nextToken_eos (fun _ => 7) ⟨[1, 2], 5, 7, true⟩).2 rfl⟩

/-- Embedding of `InferIter::complete_until` (lines 390-403): pull tokens
until exhaustion or until one whose decoded text contains the stop string;
in that case append only the text before the first marker occurrence and
stop.  `detok` is the tokenizer's decoding oracle; `fuel` bounds the
number of iterations of the Rust `while let` loop. -/
def completeUntil (sample : Nat → Nat) (detok : Nat → List Char)
    (marker : List Char) : Nat → Session → List Char × Session
  | 0, s => ([], s)
  | fuel + 1, s =>
    match nextToken sample s with
    | (none, s') => ([], s')
    | (some t, s') =>
      if containsL (detok t) marker then (takeBefore (detok t) marker, s')
      else
        let r := completeUntil sample detok marker fuel s'
        (detok t ++ r.1, r.2)

/-- Claim C3: when the next `k` sampled tokens decode to text free of the
stop string, none of the first `k+1` sampled tokens is end-of-sequence,
and the `(k+1)`-st token's decoded text contains the stop string, then
`complete_until` returns exactly the text accumulated before that first
marker occurrence (the triggering token's text truncated at the marker,
its remainder discarded), while all `k+1` tokens — the triggering one
included — remain appended to the session's buffer and nothing past the
triggering token is consumed (the step counter stops right after it). -/
theorem completeUntil_truncates (sample : Nat → Nat) (detok : Nat → List Char)
    (marker : List Char) :
    ∀ (k : Nat) (s : Session) (fuel : Nat),
      s.reachedEos = false →
      (∀ i, i ≤ k → sample (s.step + i) ≠ s.eosToken) →
      (∀ i, i < k → containsL (detok (sample (s.step + i))) marker = false) →
      containsL (detok (sample (s.step + k))) marker = true →
      k < fuel →
      completeUntil sample detok marker fuel s
        = (((List.range' s.step k).map (fun j => detok (sample j))).flatten
            ++ takeBefore (detok (sample (s.step + k))) marker,
           ⟨s.tokens ++ (List.range' s.step (k + 1)).map sample,
            s.step + (k + 1), s.eosToken, false⟩) := by
  intro k
  induction k with
  | zero =>
    intro s fuel hrun hne _ hstop hfuel
    obtain ⟨f, rfl⟩ : ∃ f, fuel = f + 1 := ⟨fuel - 1, by omega⟩
    have hne0 : sample s.step ≠ s.eosToken := by simpa using hne 0 (le_refl _)
    have hstop0 : containsL (detok (sample s.step)) marker = true := by
      simpa using hstop
    have hstep : nextToken sample s
        = (some (sample s.step),
           ⟨s.tokens ++ [sample s.step], s.step + 1, s.eosToken, s.reachedEos⟩) := by
      simp [nextToken, hrun, hne0]
    simp only [completeUntil, hstep, hstop0, if_true]
    simp [hrun]
  | succ k ih =>
    intro s fuel hrun hne hfree hstop hfuel
    obtain ⟨f, rfl⟩ : ∃ f, fuel = f + 1 := ⟨fuel - 1, by omega⟩
    have hne0 : sample s.step ≠ s.eosToken := by simpa using hne 0 (by omega)
    have hfree0 : containsL (detok (sample s.step)) marker = false := by
      simpa using hfree 0 (by omega)
    have hstep : nextToken sample s
        = (some (sample s.step),
           ⟨s.tokens ++ [sample s.step], s.step + 1, s.eosToken, s.reachedEos⟩) := by
      simp [nextToken, hrun, hne0]
    have hih := ih ⟨s.tokens ++ [sample s.step], s.step + 1, s.eosToken,
        s.reachedEos⟩ f hrun
      (fun i hi => by
        show sample (s.step + 1 + i) ≠ s.eosToken
        rw [show s.step + 1 + i = s.step + (i + 1) from by omega]
        exact hne (i + 1) (by omega))
      (fun i hi => by
        show containsL (detok (sample (s.step + 1 + i))) marker = false
        rw [show s.step + 1 + i = s.step + (i + 1) from by omega]
        exact hfree (i + 1) (by omega))
      (by
        show containsL (detok (sample (s.step + 1 + k))) marker = true
        rw [show s.step + 1 + k = s.step + (k + 1) from by omega]
        exact hstop)
      (by omega)
    simp only [completeUntil, hstep, hfree0, Bool.false_eq_true, if_false, hih]
    have e1 : s.step + 1 + k = s.step + (k + 1) := by omega
    have e2 : s.step + 1 + (k + 1) = s.step + (k + 1 + 1) := by omega
    rw [e1, e2, List.range'_succ s.step k 1, List.range'_succ s.step (k + 1) 1]
    simp [hrun, List.append_assoc]

/-! ### `Model::create_instruct_prompt` (src/model.rs lines 146-178)

The Rust function iterates over the extra-information `HashMap`; the
embedding receives the key-value pairs in iteration order as an
association list (the spec's "ordered association list"). -/

/-- One extra-information section: `"### {label}:\n{value}\n"`. -/
def sectionFor (k v : String) : String :=
  "### " ++ k ++ ":\n" ++ v ++ "\n"

/-- Embedding of `Model::create_instruct_prompt`: push every
non-"Response" section, then the instruction header and the response
header, then — if present — the "Response" value as a forced continuation.
The final `tokenize` call is left to the tokenizer oracle and the function
returns the assembled text. -/
def createInstructPrompt (instruction : String)
    (extra : Option (List (String × String))) : String :=
  let base :=
    match extra with
    | none => ""
    | some l =>
      l.foldl
        (fun acc p => if p.1 = "Response" then acc else acc ++ sectionFor p.1 p.2)
        ""
  let base := base ++ "### Instruction:\n" ++ instruction ++ "\n"
  let base := base ++ "### Response:\n"
  match extra.bind (fun l => (l.find? (fun p => p.1 == "Response")).map Prod.snd) with
  | some v => base ++ v
  | none => base

theorem strJoin_cons (s : String) (ss : List String) :
    String.join (s :: ss) = s ++ String.join ss := by
  simp [String.join_eq]
  rfl

theorem foldl_sections (l : List (String × String)) (acc : String) :
    l.foldl
        (fun acc p => if p.1 = "Response" then acc else acc ++ sectionFor p.1 p.2)
        acc
      = acc ++ String.join
          ((l.filter (fun p => p.1 != "Response")).map (fun p => sectionFor p.1 p.2)) := by
  induction l generalizing acc with
  | nil => simp [String.join]
  | cons x xs ih =>
    by_cases hx : x.1 = "Response"
    · simp only [List.foldl_cons, if_pos hx, List.filter_cons, hx]
      simp [ih]
    · simp only [List.foldl_cons, if_neg hx, List.filter_cons]
      rw [if_pos (by simp [hx]), ih]
      rw [List.map_cons, strJoin_cons, String.append_assoc]

/-- Claim C6: the assembled instruct prompt consists of, in list order,
one `"### {label}:\n{value}\n"` section per pair whose label is not the
reserved `"Response"`, followed by
`"### Instruction:\n{instruction}\n### Response:\n"`, followed — when a
`"Response"` value is present — by that value verbatim, with nothing
after it. -/
theorem createInstructPrompt_characterization (instruction : String)
    (l : List (String × String)) :
    createInstructPrompt instruction (some l)
      = String.join
          ((l.filter (fun p => p.1 != "Response")).map (fun p => sectionFor p.1 p.2))
        ++ ("### Instruction:\n" ++ instruction ++ "\n" ++ "### Response:\n")
        ++ (match l.find? (fun p => p.1 == "Response") with
            | some p => p.2
            | none => "") := by
  simp only [createInstructPrompt, Option.bind_some]
  rw [foldl_sections]
  cases hf : l.find? (fun p => p.1 == "Response") with
  | none => simp [hf, String.append_assoc]
  | some p => simp [hf, String.append_assoc]

/-- Witness for C3: a two-token stream decoding to `"ab]"` then `"cd"`
with marker `"]"` returns `"ab"`, keeps the triggering token in the
buffer, and never consumes the `"cd"` token. -/
theorem completeUntil_truncates_witness :
    completeUntil (fun i => i + 10)
      (fun t => if t = 10 then "ab]".toList else "cd".toList)
      "]".toList 5 ⟨[3], 0, 99, false⟩
      = ("ab".toList, ⟨[3, 10], 1, 99, false⟩) := by
  have h := completeUntil_truncates (fun i => i + 10)
    (fun t => if t = 10 then "ab]".toList else "cd".toList)
    "]".toList 0 ⟨[3], 0, 99, false⟩ 5 rfl
    (by decide) (by decide) (by decide) (by decide)
  simpa using h

/-! ### `Scene` (src/scene.rs) and `TokenString::shortened`
(src/token_string.rs lines 196-216)

Token buffers are lists of token ids; the tokenizer and the generation
engine are oracles.  `Model::instruct_2` is called by
`TokenString::shortened_2` but its body is not among the sources, so it is
modelled from the spec below. -/

/-- The scene state (src/scene.rs lines 5-12): long- and short-term
memory, the model's stored seed, the character list and the optional last
speaker. -/
structure Scene where
  longTerm : List Nat
  shortTerm : List Nat
  modelSeed : Nat
  characters : List String
  lastSpeaker : Option String
deriving DecidableEq

/-- `MAX_TOKENS` (src/model.rs line 17). -/
def MAX_TOKENS : Nat := 2048

/-- `Scene::memory_length`: total length of long- plus short-term
memory. -/
def Scene.memoryLength (sc : Scene) : Nat :=
  sc.longTerm.length + sc.shortTerm.length

/-- Modelled from the spec: `Model::instruct_2` is referenced by
`TokenString` (src/token_string.rs lines 190-215) but missing from the
sources.  Per spec §4.3 it is the explicit instruct variant taking a seed,
a token budget, a temperature and stop markers, returning a generated
response bounded by the token budget; the response content comes from the
engine oracle (temperature and stop markers are absorbed into the oracle —
they do not affect the length accounting). -/
def instruct_2 (engine : List Nat → Nat → List Nat)
    (instructionTokens : List Nat) (seed maxTokens : Nat) : List Nat :=
  (engine instructionTokens seed).take maxTokens

/-- The seed derivation of `TokenString::shortened` (lines 197-202):
wrapping sum of the first 4 token ids. -/
def firstFourSeed (tokens : List Nat) : Nat :=
  (tokens.take 4).foldl (fun acc t => (acc + t) % U64) 0

/-- Embedding of `TokenString::shortened` / `shortened_2`: prepend the
paraphrase instruction (its tokenization `pfx` comes from the tokenizer
oracle) and run the instruct call with the model's full token budget. -/
def shortened (engine : List Nat → Nat → List Nat) (pfx tokens : List Nat) :
    List Nat :=
  instruct_2 engine (pfx ++ tokens) (firstFourSeed tokens) MAX_TOKENS

/-- Embedding of `Scene::compress_memory` (src/scene.rs lines 79-90):
no-op below the threshold; otherwise replace long-term memory by the
shortened full memory and clear short-term memory. -/
def compressMemory (engine : List Nat → Nat → List Nat) (pfx : List Nat)
    (sc : Scene) (ifLongerThan : Nat) : Scene :=
  if sc.memoryLength < ifLongerThan then sc
  else
    { sc with
      longTerm := shortened engine pfx (sc.longTerm ++ sc.shortTerm),
      shortTerm := [] }

/-- Counterexample to claim C4 as stated: a scene with 5 memory tokens and
threshold 1 triggers compression, but when the paraphrase oracle answers
with 10 tokens the post-compression memory length is 10 — not strictly
less than the pre-compression length 5. -/
theorem compressMemory_counterexample :
    1 ≤ (Scene.mk [1, 2, 3] [4, 5] 0 [] none).memoryLength ∧
    ¬ ((compressMemory (fun _ _ => List.replicate 10 7) []
          (Scene.mk [1, 2, 3] [4, 5] 0 [] none) 1).memoryLength
        < (Scene.mk [1, 2, 3] [4, 5] 0 [] none).memoryLength) := by
  constructor
  · decide
  · decide

/-- Claim C4 amended: `compress_memory(threshold)` is a no-op (the scene,
hence long-term, short-term and `memory_length`, is unchanged) when
`memory_length < threshold`; whenever it triggers, short-term memory
becomes exactly empty and the new `memory_length` is the length of the
paraphrased buffer, bounded by the `MAX_TOKENS` budget — hence strictly
below the pre-compression length whenever the threshold exceeds that
budget, but not in general, because the paraphrase may be longer than the
original memory. -/
theorem compressMemory_behavior (engine : List Nat → Nat → List Nat)
    (pfx : List Nat) (sc : Scene) (th : Nat) :
    (sc.memoryLength < th → compressMemory engine pfx sc th = sc) ∧
    (th ≤ sc.memoryLength →
      (compressMemory engine pfx sc th).shortTerm = [] ∧
      (compressMemory engine pfx sc th).memoryLength
        = (shortened engine pfx (sc.longTerm ++ sc.shortTerm)).length ∧
      (compressMemory engine pfx sc th).memoryLength ≤ MAX_TOKENS) ∧
    (MAX_TOKENS < th → th ≤ sc.memoryLength →
      (compressMemory engine pfx sc th).memoryLength < sc.memoryLength) := by
  have hno : sc.memoryLength < th → compressMemory engine pfx sc th = sc := by
    intro h
    unfold compressMemory
    rw [if_pos h]
  have htrig : th ≤ sc.memoryLength →
      compressMemory engine pfx sc th
        = { sc with
            longTerm := shortened engine pfx (sc.longTerm ++ sc.shortTerm),
            shortTerm := [] } := by
    intro h
    unfold compressMemory
    rw [if_neg (by omega)]
  have hbound : (shortened engine pfx (sc.longTerm ++ sc.shortTerm)).length
      ≤ MAX_TOKENS := by
    unfold shortened instruct_2
    exact List.length_take_le _ _
  refine ⟨hno, ?_, ?_⟩
  · intro h
    rw [htrig h]
    refine ⟨rfl, ?_, ?_⟩
    · show (shortened engine pfx (sc.longTerm ++ sc.shortTerm)).length
          + ([] : List Nat).length = _
      simp
    · show (shortened engine pfx (sc.longTerm ++ sc.shortTerm)).length
          + ([] : List Nat).length ≤ MAX_TOKENS
      simpa using hbound
  · intro hth h
    rw [htrig h]
    show (shortened engine pfx (sc.longTerm ++ sc.shortTerm)).length
        + ([] : List Nat).length < sc.memoryLength
    simp only [List.length_nil, Nat.add_zero]
    omega

/-- Witness for the amended C4: below the threshold nothing changes, and a
triggering compression with a threshold above the token budget strictly
shrinks memory. -/
theorem compressMemory_behavior_witness :
    compressMemory (fun _ _ => [9]) [] (Scene.mk [1, 2, 3] [4, 5] 0 [] none) 10
        = Scene.mk [1, 2, 3] [4, 5] 0 [] none ∧
    (compressMemory (fun _ _ => [9]) []
        (Scene.mk (List.replicate 3000 0) [] 0 [] none) 2500).memoryLength
      < (Scene.mk (List.replicate 3000 0) [] 0 [] none).memoryLength :=
  ⟨(compressMemory_behavior (fun _ _ => [9]) []
      (Scene.mk [1, 2, 3] [4, 5] 0 [] none) 10).1 (by decide),
   (compressMemory_behavior (fun _ _ => [9]) []
      (Scene.mk (List.replicate 3000 0) [] 0 [] none) 2500).2.2
      (by decide) (by norm_num [Scene.memoryLength, List.length_replicate])⟩

/-! ### `Scene::infer_any` (src/scene.rs lines 165-194) -/

/-- The outcome of the turn decision of `Scene::infer_any`: a story turn,
a dialogue turn with the chosen speaker, or the
`panic!("No characters to choose from")` outcome, which the embedding
makes an explicit variant rather than a silent fallback. -/
inductive TurnChoice where
  | story : TurnChoice
  | dialogue : String → TurnChoice
  | panicNoCharacters : TurnChoice
deriving DecidableEq

/-- The seed derivation of `infer_any` (lines 166-173): wrapping sum of
the last 4 short-term token ids, wrapping-added to the model's stored
seed. -/
def inferAnySeed (sc : Scene) : Nat :=
  ((sc.shortTerm.reverse.take 4).foldl (fun acc t => (acc + t) % U64) 0
    + sc.modelSeed) % U64

/-- Bitwise NOT of a `u64` value. -/
def notU64 (x : Nat) : Nat := u64max - x % U64

/-- The candidate index scanned at a given attempt (line 180):
`((!seed) as usize).wrapping_add(attempt) % character_count`. -/
def speakerIndex (seed n attempt : Nat) : Nat :=
  ((notU64 seed + attempt) % U64) % n

/-- The speaker-selection loop of `infer_any` (lines 178-189): scan as
many attempts as there are characters and return the first candidate
differing from the last speaker — or the candidate of the very first
attempt when there is no last speaker; `none` models falling through to
the `panic!`. -/
def chooseSpeakerGo (chars : List String) (last : Option String) (seed : Nat) :
    Nat → Nat → Option String
  | _, 0 => none
  | attempt, rem + 1 =>
    let c := chars.getD (speakerIndex seed chars.length attempt) ""
    match last with
    | some ls =>
      if ls ≠ c then some c else chooseSpeakerGo chars last seed (attempt + 1) rem
    | none => some c

/-- Embedding of the turn-kind and speaker decision of `Scene::infer_any`:
dialogue when `seed % 5 < 3`, otherwise story. -/
def inferAnyChoice (sc : Scene) : TurnChoice :=
  if inferAnySeed sc % 5 < 3 then
    match chooseSpeakerGo sc.characters sc.lastSpeaker (inferAnySeed sc) 0
        sc.characters.length with
    | some c => TurnChoice.dialogue c
    | none => TurnChoice.panicNoCharacters
  else TurnChoice.story

/-- The scan order of the speaker candidates, written the way the spec
words it: candidate `((bitwise-not seed) + attempt) mod character_count`
for `attempt` in `0 .. character_count`. -/
def specScanSpeakers (chars : List String) (seed : Nat) : List String :=
  (List.range chars.length).map
    (fun a => chars.getD (speakerIndex seed chars.length a) "")

theorem chooseSpeakerGo_eq_find (chars : List String) (ls : String)
    (seed : Nat) :
    ∀ (rem attempt : Nat),
      chooseSpeakerGo chars (some ls) seed attempt rem
        = ((List.range' attempt rem).map
            (fun a => chars.getD (speakerIndex seed chars.length a) "")).find?
            (fun c => c != ls) := by
  intro rem
  induction rem with
  | zero => intro attempt; simp [chooseSpeakerGo]
  | succ rem ih =>
    intro attempt
    rw [List.range'_succ, List.map_cons, List.find?_cons]
    show (if ls ≠ chars.getD (speakerIndex seed chars.length attempt) "" then _
      else chooseSpeakerGo chars (some ls) seed (attempt + 1) rem) = _
    by_cases h : ls = chars.getD (speakerIndex seed chars.length attempt) ""
    · rw [if_neg (by simp [h])]
      have hb : (chars.getD (speakerIndex seed chars.length attempt) "" != ls)
          = false := bne_eq_false_iff_eq.mpr h.symm
      simp only [hb]
      exact ih (attempt + 1)
    · rw [if_pos h]
      have hb : (chars.getD (speakerIndex seed chars.length attempt) "" != ls)
          = true := bne_iff_ne.mpr (Ne.symm h)
      simp only [hb]

/-- Claim C5: `infer_any` derives its seed as the wrapping sum of the last
4 short-term token ids plus the scene's base seed; it selects a dialogue
turn exactly when `seed % 5 < 3` and a story turn otherwise; for a
dialogue turn the speaker is the first candidate at index
`((bitwise-not seed) + attempt) mod character_count`, `attempt` scanning
`0 .. character_count`, that differs from the last speaker (the candidate
at the starting index when there is no prior speaker); and when no
character differs from the last speaker — or there is no character at
all — the decision is the explicit panic outcome, never a silently
substituted speaker. -/
theorem inferAny_characterization (sc : Scene) :
    (inferAnySeed sc
      = ((sc.shortTerm.drop (sc.shortTerm.length - 4)).sum + sc.modelSeed) % U64) ∧
    (3 ≤ inferAnySeed sc % 5 → inferAnyChoice sc = TurnChoice.story) ∧
    (inferAnySeed sc % 5 < 3 → sc.lastSpeaker = none → sc.characters ≠ [] →
      inferAnyChoice sc
        = TurnChoice.dialogue
            (sc.characters.getD
              (speakerIndex (inferAnySeed sc) sc.characters.length 0) "")) ∧
    (∀ ls, inferAnySeed sc % 5 < 3 → sc.lastSpeaker = some ls →
      inferAnyChoice sc
        = match (specScanSpeakers sc.characters (inferAnySeed sc)).find?
              (fun c => c != ls) with
          | some c => TurnChoice.dialogue c
          | none => TurnChoice.panicNoCharacters) ∧
    (inferAnySeed sc % 5 < 3 → sc.characters = [] →
      inferAnyChoice sc = TurnChoice.panicNoCharacters) := by
  refine ⟨?_, ?_, ?_, ?_, ?_⟩
  · unfold inferAnySeed
    have h := foldl_wrap_eq_sum (sc.shortTerm.reverse.take 4) 0
    rw [Nat.zero_mod, Nat.zero_add] at h
    rw [h, List.take_reverse, List.sum_reverse, Nat.mod_add_mod]
  · intro h
    unfold inferAnyChoice
    rw [if_neg (by omega)]
  · intro hlt hnone hne
    unfold inferAnyChoice
    rw [if_pos hlt, hnone]
    obtain ⟨x, xs, hx⟩ : ∃ x xs, sc.characters = x :: xs := by
      cases hc : sc.characters with
      | nil => exact absurd hc hne
      | cons x xs => exact ⟨x, xs, rfl⟩
    rw [hx]
    rfl
  · intro ls hlt hls
    unfold inferAnyChoice
    rw [if_pos hlt, hls, chooseSpeakerGo_eq_find]
    unfold specScanSpeakers
    rw [List.range_eq_range']
  · intro hlt hnil
    unfold inferAnyChoice
    rw [if_pos hlt, hnil]
    cases sc.lastSpeaker <;> rfl

/-- Witness for C5: with three characters and an all-zero seed the
decision is a dialogue; with no prior speaker the speaker is the starting
candidate "James", and with prior speaker "James" the scan skips to
"Raven". -/
theorem inferAny_characterization_witness :
    inferAnyChoice (Scene.mk [] [] 0 ["James", "Raven", "Morgan"] none)
        = TurnChoice.dialogue "James" ∧
    inferAnyChoice (Scene.mk [] [] 0 ["James", "Raven", "Morgan"] (some "James"))
        = TurnChoice.dialogue "Raven" := by
  constructor
  · rw [(inferAny_characterization
        (Scene.mk [] [] 0 ["James", "Raven", "Morgan"] none)).2.2.1
        (by decide) rfl (by decide)]
    decide
  · rw [(inferAny_characterization
        (Scene.mk [] [] 0 ["James", "Raven", "Morgan"] (some "James"))).2.2.2.1
        "James" (by decide) rfl]
    decide

end PhiRs
